import Mathlib

/-!
Verification of the IPFS CSV dumper (`main.py`).

The program crawls an IPFS DAG from a root CID and writes three CSV
streams (directories, files, blocks).  We embed the two traversal
functions `traverse_directory` and `traverse_dag` shallowly:

* remote responses are supplied by an `Env` oracle (a `none` answer
  models a `RequestException` raised by `get_ls` / `get_stat` /
  `get_dag`, which the Python code catches at the call site);
* JSON fields read with `dict.get` are `Option`-valued; fields read
  with raw indexing (`link["Hash"]["/"]`, `link["Tsize"]`) are also
  `Option`-valued, but a `none` there produces an uncaught `KeyError`,
  modelled as an `Err.keyError` outcome that aborts the whole run;
* the mutable run state (visited set, row-index counter, the three CSV
  streams, and an instrumentation log of issued queries and of emitted
  tree rows paired with their assigned index) is threaded explicitly;
* recursion is bounded by a fuel counter, decremented on every
  recursive step so that the interpreter is structurally recursive and
  computable by the kernel.  `Err.noFuel` is the out-of-fuel outcome,
  an artifact of the embedding (Python recursion has no such bound).
-/

abbrev Cid := String

/-- A link inside one object of an `/api/v0/ls` response.  Every field is
read with `dict.get` in the Python code, hence `Option`-valued. -/
structure LsLink where
  name : Option String
  hash : Option Cid
  size : Option Nat
  typ : Option Nat
deriving DecidableEq

/-- One object of an `/api/v0/ls` response; `links` is `none` when the
object has no `Links` key (the code uses `obj.get('Links', [])`). -/
structure LsObject where
  links : Option (List LsLink)
deriving DecidableEq

/-- A parsed `/api/v0/ls` response; `objects` is `none` when the
`Objects` key is absent. -/
structure LsData where
  objects : Option (List LsObject)
deriving DecidableEq

/-- A parsed `/api/v0/files/stat` response; fields read with `dict.get`. -/
structure StatData where
  cumulativeSize : Option Nat
  blocks : Option Nat
deriving DecidableEq

/-- A link of a DAG node.  `hashSlash` models `link["Hash"]["/"]` and
`tsize` models `link["Tsize"]`; `none` means the key is absent, which
the Python code turns into an uncaught `KeyError`. -/
structure DagLink where
  hashSlash : Option Cid
  tsize : Option Nat
deriving DecidableEq

/-- A parsed `/api/v0/dag/get` response: a dict that contains a `Links`
key, or anything else (treated as a terminal block by the code). -/
inductive DagData where
  | withLinks (links : List DagLink)
  | terminal
deriving DecidableEq

/-- The remote IPFS node, as an oracle.  A `none` result models a
`RequestException` (caught by the caller).  Arguments are `Option Cid`
because the Python code can pass `None` (a missing `Hash` field) as a
CID. -/
structure Env where
  ls : Option Cid → Option LsData
  stat : Option Cid → Option StatData
  dag : Option Cid → Option DagData

/-- One remote query issued during the run (instrumentation used to
state that a CID is, or is not, queried). -/
inductive Query where
  | ls (cid : Option Cid)
  | stat (cid : Option Cid)
  | dag (cid : Option Cid)
deriving DecidableEq

/-- A row of the directories or files CSV stream (eight columns). -/
structure TreeRow where
  name : Option String
  type_str : String
  cid : Option Cid
  size : Option Nat
  cumulative_size : Option Nat
  blocks : Option Nat
  parent_cid : Option Cid
  index_of_parent : Nat
deriving DecidableEq

/-- A row of the blocks CSV stream (five columns). -/
structure BlockRow where
  cid : Option Cid
  parent_cid : Option Cid
  final_block_hash : Option Cid
  num_links : Nat
  size : Nat
deriving DecidableEq

/-- The mutable state of one run: the shared visited set, the row-index
counter, the three CSV streams, the log of emitted tree rows paired
with the index assigned at emission (in emission order, both streams
interleaved), and the log of issued remote queries. -/
structure St where
  visited : List (Option Cid)
  rowIndex : Nat
  dirRows : List TreeRow
  fileRows : List TreeRow
  blockRows : List BlockRow
  treeLog : List (Nat × TreeRow)
  queries : List Query
deriving DecidableEq

/-- Outcome of a call: `keyError` models an uncaught Python `KeyError`
(raised by `link["Hash"]["/"]` or `link["Tsize"]`), `noFuel` is the
fuel-exhaustion artifact of the embedding. -/
inductive Err where
  | noFuel
  | keyError (field : String)
deriving DecidableEq

/-- Append a query to the instrumentation log. -/
def logQ (st : St) (q : Query) : St :=
  { st with queries := st.queries ++ [q] }

/-- Append a block row to the blocks stream. -/
def emitBlock (st : St) (r : BlockRow) : St :=
  { st with blockRows := st.blockRows ++ [r] }

/-- Append a tree row (with its assigned index) to the directories or
files stream, as `csv_writer.writerow` does. -/
def emitTree (st : St) (isDir : Bool) (idx : Nat) (r : TreeRow) : St :=
  { st with
    treeLog := st.treeLog ++ [(idx, r)]
    dirRows := if isDir then st.dirRows ++ [r] else st.dirRows
    fileRows := if isDir then st.fileRows else st.fileRows ++ [r] }

/-- `links[-1]["Hash"]["/"] if num_links > 0 else None`, evaluated
before the loop of `traverse_dag`; a missing key raises `KeyError`. -/
def finalBlockHash (links : List DagLink) : Except Err (Option Cid) :=
  match links.getLast? with
  | none => .ok none
  | some l =>
    match l.hashSlash with
    | none => .error (.keyError "Hash")
    | some c => .ok (some c)

/-- The call shapes of the traversal: `dagVisit`/`dagLinks` are the body
and the link loop of Python's `traverse_dag`; `dirVisit`/`dirObjs`/
`dirLinks` are the body, the object loop and the link loop of Python's
`traverse_directory`. -/
inductive Call where
  | dagVisit (cid parent_cid : Option Cid)
  | dagLinks (cid parent_cid fbh : Option Cid) (num_links : Nat) (links : List DagLink)
  | dirVisit (cid parent_cid : Option Cid) (parent_index : Nat)
  | dirObjs (cid parent_cid : Option Cid) (parent_index : Nat) (objs : List LsObject)
  | dirLinks (cid parent_cid : Option Cid) (parent_index : Nat) (links : List LsLink)
deriving DecidableEq

/-- `'directory' if link.get('Type') == 1 else 'file'`, as a flag. -/
def entryIsDir (link : LsLink) : Bool := link.typ == some 1

/-- The tree row built for one listing entry (lines 113-123 of
`main.py`). -/
def entryRow (link : LsLink) (statData : StatData) (parent_cid : Option Cid)
    (parent_index : Nat) : TreeRow :=
  ⟨link.name, if entryIsDir link then "directory" else "file", link.hash, link.size,
    statData.cumulativeSize, statData.blocks, parent_cid, parent_index⟩

/-- For one stat-successful listing entry: advance the row-index
counter and write the row under the index it had on entry
(lines 110-123 of `main.py`). -/
def emitEntryRow (st : St) (parent_cid : Option Cid) (parent_index : Nat)
    (link : LsLink) (statData : StatData) : St :=
  emitTree { st with rowIndex := st.rowIndex + 1 } (entryIsDir link) st.rowIndex
    (entryRow link statData parent_cid parent_index)

/-- The traversal interpreter, a direct transcription of
`traverse_dag` (lines 40-76 of `main.py`) and `traverse_directory`
(lines 78-131).  The second component of the result is `none` on
normal return and `some e` when an uncaught exception (or fuel
exhaustion) aborts the call; already-written CSV rows survive in the
first component, as they do on disk when the Python process dies. -/
def exec (env : Env) : Nat → Call → St → St × Option Err
  | fuel, .dagVisit cid parent_cid, st =>
    if cid ∈ st.visited then (st, none)
    else
      match fuel with
      | 0 => (st, some .noFuel)
      | fuel + 1 =>
        let st := logQ { st with visited := cid :: st.visited } (.dag cid)
        match env.dag cid with
        | none => (st, none)
        | some .terminal =>
          (emitBlock st ⟨cid, parent_cid, cid, 0, 0⟩, none)
        | some (.withLinks links) =>
          match finalBlockHash links with
          | .error e => (st, some e)
          | .ok fbh => exec env fuel (.dagLinks cid parent_cid fbh links.length links) st
  | fuel, .dagLinks cid parent_cid fbh n links, st =>
    match links with
    | [] => (st, none)
    | l :: rest =>
      match fuel with
      | 0 => (st, some .noFuel)
      | fuel + 1 =>
        match l.hashSlash with
        | none => (st, some (.keyError "Hash"))
        | some link_cid =>
          match l.tsize with
          | none => (st, some (.keyError "Tsize"))
          | some link_size =>
            let st := emitBlock st ⟨cid, parent_cid, fbh, n, link_size⟩
            match exec env fuel (.dagVisit (some link_cid) cid) st with
            | (st, some e) => (st, some e)
            | (st, none) => exec env fuel (.dagLinks cid parent_cid fbh n rest) st
  | fuel, .dirVisit cid parent_cid parent_index, st =>
    if cid ∈ st.visited then (st, none)
    else
      match fuel with
      | 0 => (st, some .noFuel)
      | fuel + 1 =>
        let st := logQ { st with visited := cid :: st.visited } (.ls cid)
        match env.ls cid with
        | none => (st, none)
        | some lsData =>
          match lsData.objects with
          | none => (st, none)
          | some objs => exec env fuel (.dirObjs cid parent_cid parent_index objs) st
  | fuel, .dirObjs cid parent_cid parent_index objs, st =>
    match objs with
    | [] => (st, none)
    | o :: rest =>
      match fuel with
      | 0 => (st, some .noFuel)
      | fuel + 1 =>
        match exec env fuel (.dirLinks cid parent_cid parent_index (o.links.getD [])) st with
        | (st, some e) => (st, some e)
        | (st, none) => exec env fuel (.dirObjs cid parent_cid parent_index rest) st
  | fuel, .dirLinks cid parent_cid parent_index links, st =>
    match links with
    | [] => (st, none)
    | link :: rest =>
      match fuel with
      | 0 => (st, some .noFuel)
      | fuel + 1 =>
        let st1 := logQ st (.stat link.hash)
        match env.stat link.hash with
        | none => exec env fuel (.dirLinks cid parent_cid parent_index rest) st1
        | some statData =>
          let current_index := st1.rowIndex
          let st3 := emitEntryRow st1 parent_cid parent_index link statData
          match exec env fuel (.dagVisit link.hash cid) st3 with
          | (st4, some e) => (st4, some e)
          | (st4, none) =>
            if entryIsDir link then
              match exec env fuel (.dirVisit link.hash cid current_index) st4 with
              | (st5, some e) => (st5, some e)
              | (st5, none) => exec env fuel (.dirLinks cid parent_cid parent_index rest) st5
            else exec env fuel (.dirLinks cid parent_cid parent_index rest) st4

/-- The initial state of `main`: empty visited set, row index 1, empty
streams. -/
def initSt : St := ⟨[], 1, [], [], [], [], []⟩

/-- The whole run:
`traverse_directory(node, root, root, ..., visited={}, 1, 0)`. -/
def run (env : Env) (fuel : Nat) (root : Cid) : St × Option Err :=
  exec env fuel (.dirVisit (some root) (some root) 0) initSt

/-- The only call shape that emits rows for a CID that is already in
the visited set is the link loop of the block walker, which emits rows
for its own node. -/
def callOwner : Call → Option (Option Cid)
  | .dagLinks c _ _ _ _ => some c
  | _ => none

/-- How one traversal call transforms the state: the visited set and
all output streams only grow, every new block row is for a CID that was
unvisited at entry (except rows owned by a `dagLinks` call), and every
new DAG query targets a CID that was unvisited at entry. -/
structure Evolves (owner : Option (Option Cid)) (st st' : St) : Prop where
  visited : ∃ e, st'.visited = e ++ st.visited
  blocks : ∃ e, st'.blockRows = st.blockRows ++ e ∧
    ∀ r ∈ e, r.cid ∉ st.visited ∨ owner = some r.cid
  dagQueries : ∃ e, st'.queries = st.queries ++ e ∧
    ∀ x, Query.dag x ∈ e → x ∉ st.visited
  tree : ∃ e, st'.treeLog = st.treeLog ++ e
  dirs : ∃ e, st'.dirRows = st.dirRows ++ e
  files : ∃ e, st'.fileRows = st.fileRows ++ e
  rowIdx : st.rowIndex ≤ st'.rowIndex

/-- The tree-walker-relevant part of the state: row-index counter and
the two tree streams with their log. -/
def treePart (st : St) : Nat × List TreeRow × List TreeRow × List (Nat × TreeRow) :=
  (st.rowIndex, st.dirRows, st.fileRows, st.treeLog)

/-- Call shapes belonging to the block walker `traverse_dag`. -/
def isDagCall : Call → Bool
  | .dagVisit _ _ => true
  | .dagLinks _ _ _ _ _ => true
  | _ => false

/-- Number of listing entries whose stat query succeeds. -/
def statOkLinks (env : Env) (links : List LsLink) : Nat :=
  links.countP (fun l => (env.stat l.hash).isSome)

/-- Number of stat-successful entries over all objects of a listing. -/
def statOkObjs (env : Env) (objs : List LsObject) : Nat :=
  (objs.map (fun o => statOkLinks env (o.links.getD []))).sum

/-- The block row written for one link of an internal node
(lines 60-66 of `main.py`). -/
def edgeRow (cid parent_cid fbh : Option Cid) (n : Nat) (l : DagLink) : BlockRow :=
  ⟨cid, parent_cid, fbh, n, l.tsize.getD 0⟩

/-- The block rows carrying a given `cid` field. -/
def rowsFor (cid : Option Cid) (rows : List BlockRow) : List BlockRow :=
  rows.filter (fun r => r.cid == cid)

/-- The indices assigned to emitted tree rows, in emission order. -/
def logIdxs (l : List (Nat × TreeRow)) : List Nat := l.map Prod.fst

/-- Every emitted tree row's `index_of_parent` is 0 or an index
assigned to a row emitted strictly earlier. -/
def ParentOk (l : List (Nat × TreeRow)) : Prop :=
  ∀ i, (hi : i < l.length) →
    l[i].2.index_of_parent = 0 ∨ l[i].2.index_of_parent ∈ logIdxs (l.take i)

/-- The tree-walker invariant: assigned indices strictly increase in
emission order and stay below the counter, parent references point
backwards, and every row of the two tree streams appears in the
emission log. -/
structure TreeInv (st : St) : Prop where
  chain : List.Chain' (· < ·) (logIdxs st.treeLog)
  bound : ∀ x ∈ st.treeLog, x.1 < st.rowIndex
  parentOk : ParentOk st.treeLog
  covered : ∀ r ∈ st.dirRows ++ st.fileRows, ∃ i, (i, r) ∈ st.treeLog

/-- The parent-index obligation attached to a call. -/
def callIdxOk : Call → St → Prop
  | .dirVisit _ _ i, st => i = 0 ∨ i ∈ logIdxs st.treeLog
  | .dirObjs _ _ i _, st => i = 0 ∨ i ∈ logIdxs st.treeLog
  | .dirLinks _ _ i _, st => i = 0 ∨ i ∈ logIdxs st.treeLog
  | _, _ => True

/-- All DAG responses of the remote node have both `Hash./` and `Tsize`
present in every link. -/
def WfDagEnv (env : Env) : Prop :=
  ∀ c links, env.dag c = some (.withLinks links) →
    ∀ l ∈ links, l.hashSlash ≠ none ∧ l.tsize ≠ none

/-- The well-formedness obligation a call carries: only the link loop
of the block walker holds raw link data. -/
def callWf : Call → Prop
  | .dagLinks _ _ _ _ links => ∀ l ∈ links, l.hashSlash ≠ none ∧ l.tsize ≠ none
  | _ => True

/-- A remote node whose every DAG response is a terminal block and
whose listing/stat queries all fail. -/
def envAllTerminal : Env where
  ls := fun _ => none
  stat := fun _ => none
  dag := fun _ => some .terminal

/-- A node whose root listing repeats the same child CID `X` twice. -/
def envDupChild : Env where
  ls := fun c =>
    if c = some "R" then
      some ⟨some [⟨some [⟨some "a", some "X", some 5, some 2⟩,
                         ⟨some "b", some "X", some 5, some 2⟩]⟩]⟩
    else none
  stat := fun _ => some ⟨some 5, some 1⟩
  dag := fun _ => some .terminal

/-- A node where the root lists one directory `X`, and `X` itself lists
a file `Y`; all queries succeed. -/
def envDeepDir : Env where
  ls := fun c =>
    if c = some "R" then
      some ⟨some [⟨some [⟨some "d", some "X", some 7, some 1⟩]⟩]⟩
    else if c = some "X" then
      some ⟨some [⟨some [⟨some "f", some "Y", some 5, some 2⟩]⟩]⟩
    else none
  stat := fun _ => some ⟨some 9, some 1⟩
  dag := fun _ => some .terminal

/-- A node whose DAG response for `X` has a link without a `Tsize` key. -/
def envBadTsize : Env where
  ls := fun c =>
    if c = some "R" then
      some ⟨some [⟨some [⟨some "f", some "X", some 5, some 0⟩]⟩]⟩
    else none
  stat := fun _ => some ⟨some 5, some 1⟩
  dag := fun c => if c = some "X" then some (.withLinks [⟨some "Y", none⟩]) else some .terminal

/-- A node whose DAG response for `A` is an internal node with two
well-formed links. -/
def envTwoLinks : Env where
  ls := fun _ => none
  stat := fun _ => none
  dag := fun c =>
    if c = some "A" then some (.withLinks [⟨some "B", some 3⟩, ⟨some "C", some 4⟩])
    else some .terminal

/-- A node whose DAG response for `E` has a `Links` key bound to the
empty list. -/
def envEmptyLinks : Env where
  ls := fun _ => none
  stat := fun _ => none
  dag := fun c => if c = some "E" then some (.withLinks []) else some .terminal

/-- A node where the root lists one file `X` whose DAG node links back
to the root. -/
def envLinkToRoot : Env where
  ls := fun c =>
    if c = some "R" then
      some ⟨some [⟨some [⟨some "f", some "X", some 5, some 0⟩]⟩]⟩
    else none
  stat := fun _ => some ⟨some 5, some 1⟩
  dag := fun c => if c = some "X" then some (.withLinks [⟨some "R", some 7⟩]) else some .terminal

/-- The tree walker on an already-visited CID is the identity on the state. -/
theorem dirVisit_of_visited (env : Env) (fuel : Nat) (cid parent_cid : Option Cid)
    (parent_index : Nat) (st : St) (h : cid ∈ st.visited) :
    exec env fuel (.dirVisit cid parent_cid parent_index) st = (st, none) := by
  cases fuel <;> simp [exec, h]

/-- The block walker on an already-visited CID is the identity on the state. -/
theorem dagVisit_of_visited (env : Env) (fuel : Nat) (cid parent_cid : Option Cid)
    (st : St) (h : cid ∈ st.visited) :
    exec env fuel (.dagVisit cid parent_cid) st = (st, none) := by
  cases fuel <;> simp [exec, h]

/-- Unfolding the block walker on an unvisited terminal block. -/
theorem dagVisit_terminal (env : Env) (fuel : Nat) (cid parent_cid : Option Cid)
    (st : St) (h : cid ∉ st.visited) (hd : env.dag cid = some .terminal) :
    exec env (fuel + 1) (.dagVisit cid parent_cid) st =
      ({ st with visited := cid :: st.visited,
                 queries := st.queries ++ [Query.dag cid],
                 blockRows := st.blockRows ++ [⟨cid, parent_cid, cid, 0, 0⟩] }, none) := by
  simp [exec, h, hd, logQ, emitBlock]

/-- Unfolding the block walker on an unvisited node whose response has a
`Links` key bound to the empty list. -/
theorem dagVisit_emptyLinks (env : Env) (fuel : Nat) (cid parent_cid : Option Cid)
    (st : St) (h : cid ∉ st.visited) (hd : env.dag cid = some (.withLinks [])) :
    exec env (fuel + 1) (.dagVisit cid parent_cid) st =
      ({ st with visited := cid :: st.visited,
                 queries := st.queries ++ [Query.dag cid] }, none) := by
  simp [exec, h, hd, logQ, finalBlockHash]

/-- A failed stat skips exactly one listing entry: the loop continues on
the remaining entries with only the failed stat query logged. -/
theorem dirLinks_statFail (env : Env) (fuel : Nat) (cid parent_cid : Option Cid)
    (parent_index : Nat) (link : LsLink) (rest : List LsLink) (st : St)
    (h : env.stat link.hash = none) :
    exec env (fuel + 1) (.dirLinks cid parent_cid parent_index (link :: rest)) st =
      exec env fuel (.dirLinks cid parent_cid parent_index rest) (logQ st (.stat link.hash)) := by
  simp [exec, h]

theorem Evolves.refl (owner : Option (Option Cid)) (st : St) : Evolves owner st st :=
  ⟨⟨[], rfl⟩, ⟨[], by simp⟩, ⟨[], by simp⟩, ⟨[], by simp⟩, ⟨[], by simp⟩, ⟨[], by simp⟩,
    le_refl _⟩

theorem Evolves.subsetVisited {owner : Option (Option Cid)} {st st' : St}
    (h : Evolves owner st st') : ∀ c ∈ st.visited, c ∈ st'.visited := by
  obtain ⟨e, he⟩ := h.visited
  intro c hc
  rw [he]
  exact List.mem_append_right _ hc

theorem Evolves.trans {owner : Option (Option Cid)} {st st' st'' : St}
    (h1 : Evolves owner st st') (h2 : Evolves owner st' st'') : Evolves owner st st'' := by
  refine ⟨?_, ?_, ?_, ?_, ?_, ?_, le_trans h1.rowIdx h2.rowIdx⟩
  · obtain ⟨e1, he1⟩ := h1.visited
    obtain ⟨e2, he2⟩ := h2.visited
    exact ⟨e2 ++ e1, by rw [he2, he1, List.append_assoc]⟩
  · obtain ⟨e1, he1, hr1⟩ := h1.blocks
    obtain ⟨e2, he2, hr2⟩ := h2.blocks
    refine ⟨e1 ++ e2, by rw [he2, he1, List.append_assoc], ?_⟩
    intro r hr
    rcases List.mem_append.mp hr with h | h
    · exact hr1 r h
    · rcases hr2 r h with h' | h'
      · exact Or.inl fun hmem => h' (h1.subsetVisited _ hmem)
      · exact Or.inr h'
  · obtain ⟨e1, he1, hq1⟩ := h1.dagQueries
    obtain ⟨e2, he2, hq2⟩ := h2.dagQueries
    refine ⟨e1 ++ e2, by rw [he2, he1, List.append_assoc], ?_⟩
    intro x hx
    rcases List.mem_append.mp hx with h | h
    · exact hq1 x h
    · exact fun hmem => hq2 x h (h1.subsetVisited _ hmem)
  · obtain ⟨e1, he1⟩ := h1.tree
    obtain ⟨e2, he2⟩ := h2.tree
    exact ⟨e1 ++ e2, by rw [he2, he1, List.append_assoc]⟩
  · obtain ⟨e1, he1⟩ := h1.dirs
    obtain ⟨e2, he2⟩ := h2.dirs
    exact ⟨e1 ++ e2, by rw [he2, he1, List.append_assoc]⟩
  · obtain ⟨e1, he1⟩ := h1.files
    obtain ⟨e2, he2⟩ := h2.files
    exact ⟨e1 ++ e2, by rw [he2, he1, List.append_assoc]⟩

theorem Evolves.weaken {st st' : St} (owner : Option (Option Cid))
    (h : Evolves none st st') : Evolves owner st st' := by
  refine ⟨h.visited, ?_, h.dagQueries, h.tree, h.dirs, h.files, h.rowIdx⟩
  obtain ⟨e, he, hr⟩ := h.blocks
  refine ⟨e, he, fun r hmem => ?_⟩
  rcases hr r hmem with h' | h'
  · exact Or.inl h'
  · exact absurd h' (by simp)

/-- Composition where the middle segment is owned by a CID that was
still unvisited at the start. -/
theorem Evolves.transOwner {st st' st'' : St} {c : Option Cid}
    (h1 : Evolves none st st') (h2 : Evolves (some c) st' st'')
    (hc : c ∉ st.visited) : Evolves none st st'' := by
  refine ⟨?_, ?_, ?_, ?_, ?_, ?_, le_trans h1.rowIdx h2.rowIdx⟩
  · obtain ⟨e1, he1⟩ := h1.visited
    obtain ⟨e2, he2⟩ := h2.visited
    exact ⟨e2 ++ e1, by rw [he2, he1, List.append_assoc]⟩
  · obtain ⟨e1, he1, hr1⟩ := h1.blocks
    obtain ⟨e2, he2, hr2⟩ := h2.blocks
    refine ⟨e1 ++ e2, by rw [he2, he1, List.append_assoc], ?_⟩
    intro r hr
    rcases List.mem_append.mp hr with h | h
    · rcases hr1 r h with h' | h'
      · exact Or.inl h'
      · exact absurd h' (by simp)
    · rcases hr2 r h with h' | h'
      · exact Or.inl fun hmem => h' (h1.subsetVisited _ hmem)
      · exact Or.inl (by
          have : c = r.cid := Option.some_injective _ h'
          exact this ▸ hc)
  · obtain ⟨e1, he1, hq1⟩ := h1.dagQueries
    obtain ⟨e2, he2, hq2⟩ := h2.dagQueries
    refine ⟨e1 ++ e2, by rw [he2, he1, List.append_assoc], ?_⟩
    intro x hx
    rcases List.mem_append.mp hx with h | h
    · exact hq1 x h
    · exact fun hmem => hq2 x h (h1.subsetVisited _ hmem)
  · obtain ⟨e1, he1⟩ := h1.tree
    obtain ⟨e2, he2⟩ := h2.tree
    exact ⟨e1 ++ e2, by rw [he2, he1, List.append_assoc]⟩
  · obtain ⟨e1, he1⟩ := h1.dirs
    obtain ⟨e2, he2⟩ := h2.dirs
    exact ⟨e1 ++ e2, by rw [he2, he1, List.append_assoc]⟩
  · obtain ⟨e1, he1⟩ := h1.files
    obtain ⟨e2, he2⟩ := h2.files
    exact ⟨e1 ++ e2, by rw [he2, he1, List.append_assoc]⟩

/-- At zero fuel every call leaves the state unchanged. -/
theorem exec_zero_fst (env : Env) (c : Call) (st : St) : (exec env 0 c st).1 = st := by
  cases c with
  | dagVisit cid parent_cid => by_cases h : cid ∈ st.visited <;> simp [exec, h]
  | dagLinks cid parent_cid fbh n links => cases links <;> simp [exec]
  | dirVisit cid parent_cid parent_index => by_cases h : cid ∈ st.visited <;> simp [exec, h]
  | dirObjs cid parent_cid parent_index objs => cases objs <;> simp [exec]
  | dirLinks cid parent_cid parent_index links => cases links <;> simp [exec]

/-- Marking a CID visited and logging its (fresh) DAG query evolves the
state. -/
theorem evolves_markAndLogDag {st : St} {cid : Option Cid} (h : cid ∉ st.visited) :
    Evolves none st (logQ { st with visited := cid :: st.visited } (.dag cid)) := by
  refine ⟨⟨[cid], rfl⟩, ⟨[], by simp [logQ]⟩, ⟨[Query.dag cid], by simp [logQ], ?_⟩,
    ⟨[], by simp [logQ]⟩, ⟨[], by simp [logQ]⟩, ⟨[], by simp [logQ]⟩, le_refl _⟩
  intro x hx
  simp at hx
  rcases hx with ⟨rfl⟩
  exact h

/-- Marking a CID visited and logging its listing query evolves the
state. -/
theorem evolves_markAndLogLs (st : St) (cid : Option Cid) :
    Evolves none st (logQ { st with visited := cid :: st.visited } (.ls cid)) := by
  refine ⟨⟨[cid], rfl⟩, ⟨[], by simp [logQ]⟩, ⟨[Query.ls cid], by simp [logQ], ?_⟩,
    ⟨[], by simp [logQ]⟩, ⟨[], by simp [logQ]⟩, ⟨[], by simp [logQ]⟩, le_refl _⟩
  intro x hx
  simp at hx

/-- Logging a stat query evolves the state. -/
theorem evolves_logStat (st : St) (c : Option Cid) :
    Evolves none st (logQ st (.stat c)) := by
  refine ⟨⟨[], rfl⟩, ⟨[], by simp [logQ]⟩, ⟨[Query.stat c], by simp [logQ], ?_⟩,
    ⟨[], by simp [logQ]⟩, ⟨[], by simp [logQ]⟩, ⟨[], by simp [logQ]⟩, le_refl _⟩
  intro x hx
  simp at hx

/-- Incrementing the row-index counter evolves the state. -/
theorem evolves_bumpRow (st : St) :
    Evolves none st { st with rowIndex := st.rowIndex + 1 } :=
  ⟨⟨[], rfl⟩, ⟨[], by simp⟩, ⟨[], by simp⟩, ⟨[], by simp⟩, ⟨[], by simp⟩,
    ⟨[], by simp⟩, Nat.le_succ _⟩

/-- Emitting a tree row evolves the state. -/
theorem evolves_emitTree (st : St) (b : Bool) (i : Nat) (r : TreeRow) :
    Evolves none st (emitTree st b i r) := by
  refine ⟨⟨[], by simp [emitTree]⟩, ⟨[], by simp [emitTree]⟩, ⟨[], by simp [emitTree]⟩,
    ⟨[(i, r)], by simp [emitTree]⟩, ?_, ?_, by simp [emitTree]⟩
  · exact ⟨if b then [r] else [], by cases b <;> simp [emitTree]⟩
  · exact ⟨if b then [] else [r], by cases b <;> simp [emitTree]⟩

/-- Every traversal call evolves the state. -/
theorem exec_evolves (env : Env) :
    ∀ fuel c st, Evolves (callOwner c) st (exec env fuel c st).1 := by
  intro fuel
  induction fuel with
  | zero =>
    intro c st
    rw [exec_zero_fst]
    exact Evolves.refl _ _
  | succ f ih =>
    intro c st
    cases c with
    | dagVisit cid parent_cid =>
      by_cases hmem : cid ∈ st.visited
      · simp [exec, hmem]
        exact Evolves.refl _ _
      · cases hdag : env.dag cid with
        | none =>
          simp [exec, hmem, hdag]
          exact evolves_markAndLogDag hmem
        | some dd =>
          cases dd with
          | terminal =>
            simp only [exec, if_neg hmem, hdag]
            refine ⟨⟨[cid], by simp [emitBlock, logQ]⟩,
              ⟨[⟨cid, parent_cid, cid, 0, 0⟩], by simp [emitBlock, logQ], ?_⟩,
              ⟨[Query.dag cid], by simp [emitBlock, logQ], ?_⟩,
              ⟨[], by simp [emitBlock, logQ]⟩, ⟨[], by simp [emitBlock, logQ]⟩,
              ⟨[], by simp [emitBlock, logQ]⟩, by simp [emitBlock, logQ]⟩
            · intro r hr
              simp at hr
              subst hr
              exact Or.inl hmem
            · intro x hx
              simp at hx
              rcases hx with ⟨rfl⟩
              exact hmem
          | withLinks links =>
            cases hfbh : finalBlockHash links with
            | error e =>
              simp only [exec, if_neg hmem, hdag, hfbh]
              exact evolves_markAndLogDag hmem
            | ok fbh =>
              simp only [exec, if_neg hmem, hdag, hfbh]
              refine Evolves.transOwner (evolves_markAndLogDag hmem) ?_ hmem
              exact ih (.dagLinks cid parent_cid fbh links.length links) _
    | dagLinks cid parent_cid fbh n links =>
      cases links with
      | nil =>
        simp [exec]
        exact Evolves.refl _ _
      | cons l rest =>
        cases hh : l.hashSlash with
        | none =>
          simp [exec, hh]
          exact Evolves.refl _ _
        | some link_cid =>
          cases ht : l.tsize with
          | none =>
            simp [exec, hh, ht]
            exact Evolves.refl _ _
          | some link_size =>
            simp only [exec, hh, ht]
            have hemit : Evolves (some cid) st
                (emitBlock st ⟨cid, parent_cid, fbh, n, link_size⟩) := by
              refine ⟨⟨[], rfl⟩, ⟨[⟨cid, parent_cid, fbh, n, link_size⟩],
                by simp [emitBlock], ?_⟩, ⟨[], by simp [emitBlock]⟩,
                ⟨[], by simp [emitBlock]⟩, ⟨[], by simp [emitBlock]⟩,
                ⟨[], by simp [emitBlock]⟩, le_refl _⟩
              intro r hr
              simp at hr
              subst hr
              exact Or.inr rfl
            rcases hrec : exec env f (.dagVisit (some link_cid) cid)
                (emitBlock st ⟨cid, parent_cid, fbh, n, link_size⟩) with ⟨st4, e?⟩
            have hrec1 : Evolves (some cid)
                (emitBlock st ⟨cid, parent_cid, fbh, n, link_size⟩) st4 := by
              have h := ih (.dagVisit (some link_cid) cid)
                (emitBlock st ⟨cid, parent_cid, fbh, n, link_size⟩)
              rw [hrec] at h
              exact Evolves.weaken _ h
            cases e? with
            | some e =>
              simp [hrec]
              exact Evolves.trans hemit hrec1
            | none =>
              simp only [hrec]
              refine Evolves.trans (Evolves.trans hemit hrec1) ?_
              exact ih (.dagLinks cid parent_cid fbh n rest) st4
    | dirVisit cid parent_cid parent_index =>
      by_cases hmem : cid ∈ st.visited
      · simp [exec, hmem]
        exact Evolves.refl _ _
      · cases hls : env.ls cid with
        | none =>
          simp [exec, hmem, hls]
          exact evolves_markAndLogLs st cid
        | some lsData =>
          cases hobjs : lsData.objects with
          | none =>
            simp [exec, hmem, hls, hobjs]
            exact evolves_markAndLogLs st cid
          | some objs =>
            simp only [exec, if_neg hmem, hls, hobjs]
            refine Evolves.trans (evolves_markAndLogLs st cid) ?_
            exact ih (.dirObjs cid parent_cid parent_index objs) _
    | dirObjs cid parent_cid parent_index objs =>
      cases objs with
      | nil =>
        simp [exec]
        exact Evolves.refl _ _
      | cons o rest =>
        rcases hrec : exec env f (.dirLinks cid parent_cid parent_index (o.links.getD [])) st
          with ⟨st2, e?⟩
        have hrec1 : Evolves none st st2 := by
          have h := ih (.dirLinks cid parent_cid parent_index (o.links.getD [])) st
          rw [hrec] at h
          exact h
        cases e? with
        | some e =>
          simp [exec, hrec]
          exact hrec1
        | none =>
          simp only [exec, hrec]
          exact Evolves.trans hrec1 (ih (.dirObjs cid parent_cid parent_index rest) st2)
    | dirLinks cid parent_cid parent_index links =>
      cases links with
      | nil =>
        simp [exec]
        exact Evolves.refl _ _
      | cons link rest =>
        cases hstat : env.stat link.hash with
        | none =>
          simp only [exec, hstat]
          exact Evolves.trans (evolves_logStat st _)
            (ih (.dirLinks cid parent_cid parent_index rest) _)
        | some statData =>
          simp only [exec, hstat]
          set st1 := logQ st (.stat link.hash) with hst1
          set st3 := emitEntryRow st1 parent_cid parent_index link statData with hst3
          have h13 : Evolves none st st3 := by
            refine Evolves.trans (evolves_logStat st link.hash) ?_
            rw [hst3]
            simp only [emitEntryRow]
            exact Evolves.trans (evolves_bumpRow st1) (evolves_emitTree _ _ _ _)
          rcases hrec : exec env f (.dagVisit link.hash cid) st3 with ⟨st4, e?⟩
          have hrec1 : Evolves none st3 st4 := by
            have h := ih (.dagVisit link.hash cid) st3
            rw [hrec] at h
            exact h
          cases e? with
          | some e =>
            simp [hrec]
            exact Evolves.trans h13 hrec1
          | none =>
            simp only [hrec]
            cases hdirB : entryIsDir link with
            | false =>
              simp only [Bool.false_eq_true, if_false]
              exact Evolves.trans (Evolves.trans h13 hrec1)
                (ih (.dirLinks cid parent_cid parent_index rest) st4)
            | true =>
              simp only [if_true]
              rcases hrec2 : exec env f (.dirVisit link.hash cid st1.rowIndex) st4
                with ⟨st5, e2?⟩
              have hrec3 : Evolves none st4 st5 := by
                have h := ih (.dirVisit link.hash cid st1.rowIndex) st4
                rw [hrec2] at h
                exact h
              cases e2? with
              | some e =>
                simp [hrec2]
                exact Evolves.trans (Evolves.trans h13 hrec1) hrec3
              | none =>
                simp only [hrec2]
                exact Evolves.trans (Evolves.trans (Evolves.trans h13 hrec1) hrec3)
                  (ih (.dirLinks cid parent_cid parent_index rest) st5)

/-- The block walker never touches the row-index counter nor the
directories/files streams. -/
theorem exec_dag_preserves_tree (env : Env) :
    ∀ fuel c st, isDagCall c = true → treePart (exec env fuel c st).1 = treePart st := by
  intro fuel
  induction fuel with
  | zero =>
    intro c st _
    rw [exec_zero_fst]
  | succ f ih =>
    intro c st hc
    cases c with
    | dirVisit cid parent_cid parent_index => simp [isDagCall] at hc
    | dirObjs cid parent_cid parent_index objs => simp [isDagCall] at hc
    | dirLinks cid parent_cid parent_index links => simp [isDagCall] at hc
    | dagVisit cid parent_cid =>
      by_cases hmem : cid ∈ st.visited
      · simp [exec, hmem]
      · cases hdag : env.dag cid with
        | none => simp [exec, hmem, hdag, treePart, logQ]
        | some dd =>
          cases dd with
          | terminal => simp [exec, hmem, hdag, treePart, logQ, emitBlock]
          | withLinks links =>
            cases hfbh : finalBlockHash links with
            | error e => simp [exec, hmem, hdag, hfbh, treePart, logQ]
            | ok fbh =>
              simp only [exec, if_neg hmem, hdag, hfbh]
              rw [ih _ _ (by simp [isDagCall])]
              simp [treePart, logQ]
    | dagLinks cid parent_cid fbh n links =>
      cases links with
      | nil => simp [exec]
      | cons l rest =>
        cases hh : l.hashSlash with
        | none => simp [exec, hh]
        | some link_cid =>
          cases ht : l.tsize with
          | none => simp [exec, hh, ht]
          | some link_size =>
            simp only [exec, hh, ht]
            rcases hrec : exec env f (.dagVisit (some link_cid) cid)
                (emitBlock st ⟨cid, parent_cid, fbh, n, link_size⟩) with ⟨st4, e?⟩
            have h1 : treePart st4 = treePart st := by
              have h := ih (.dagVisit (some link_cid) cid)
                (emitBlock st ⟨cid, parent_cid, fbh, n, link_size⟩) (by simp [isDagCall])
              rw [hrec] at h
              simpa [treePart, emitBlock] using h
            cases e? with
            | some e => simpa [hrec] using h1
            | none =>
              simp only [hrec]
              rw [ih _ _ (by simp [isDagCall])]
              exact h1

/-- After a successful block walk of a CID, that CID is in the visited
set (it is inserted before the DAG fetch, even a failing one). -/
theorem dagVisit_mem_visited (env : Env) (fuel : Nat) (cid parent_cid : Option Cid)
    (st st' : St) (h : exec env fuel (.dagVisit cid parent_cid) st = (st', none)) :
    cid ∈ st'.visited := by
  by_cases hmem : cid ∈ st.visited
  · rw [dagVisit_of_visited env fuel cid parent_cid st hmem] at h
    obtain ⟨rfl, -⟩ := Prod.mk.injEq .. ▸ h
    exact hmem
  · cases fuel with
    | zero =>
      simp [exec, hmem] at h
    | succ f =>
      cases hdag : env.dag cid with
      | none =>
        simp [exec, hmem, hdag] at h
        rw [← h]
        simp [logQ]
      | some dd =>
        cases dd with
        | terminal =>
          simp [exec, hmem, hdag] at h
          rw [← h]
          simp [logQ, emitBlock]
        | withLinks links =>
          cases hfbh : finalBlockHash links with
          | error e => simp [exec, hmem, hdag, hfbh] at h
          | ok fbh =>
            simp only [exec, if_neg hmem, hdag, hfbh] at h
            have hev := exec_evolves env f
              (.dagLinks cid parent_cid fbh links.length links)
              (logQ { st with visited := cid :: st.visited } (.dag cid))
            rw [h] at hev
            obtain ⟨e, he⟩ := hev.visited
            rw [he]
            apply List.mem_append_right
            simp [logQ]

/-- The recursive tree-walker call that follows a block walk of the
same CID is unconditionally a no-op: the block walk has already put
the CID into the shared visited set. -/
theorem dagVisit_then_dirVisit_noop (env : Env) (fuel : Nat) (cid parent_cid : Option Cid)
    (st st' : St) (h : exec env fuel (.dagVisit cid parent_cid) st = (st', none)) :
    ∀ fuel' parent_cid' parent_index,
      exec env fuel' (.dirVisit cid parent_cid' parent_index) st' = (st', none) := by
  intro fuel' parent_cid' parent_index
  exact dirVisit_of_visited env fuel' cid parent_cid' parent_index st'
    (dagVisit_mem_visited env fuel cid parent_cid st st' h)

/-- The tree walker's loops emit exactly one tree row per
stat-successful listing entry: the block walk emits no tree rows and
the subsequent directory recursion is always a no-op. -/
theorem exec_treeLog_count (env : Env) : ∀ fuel : Nat,
    (∀ cid parent_cid parent_index links st st',
      exec env fuel (.dirLinks cid parent_cid parent_index links) st = (st', none) →
      st'.treeLog.length = st.treeLog.length + statOkLinks env links) ∧
    (∀ cid parent_cid parent_index objs st st',
      exec env fuel (.dirObjs cid parent_cid parent_index objs) st = (st', none) →
      st'.treeLog.length = st.treeLog.length + statOkObjs env objs) := by
  intro fuel
  induction fuel with
  | zero =>
    constructor
    · intro cid parent_cid parent_index links st st' h
      cases links with
      | nil =>
        simp [exec] at h
        simp [← h, statOkLinks]
      | cons l rest => simp [exec] at h
    · intro cid parent_cid parent_index objs st st' h
      cases objs with
      | nil =>
        simp [exec] at h
        simp [← h, statOkObjs]
      | cons o rest => simp [exec] at h
  | succ f ih =>
    constructor
    · intro cid parent_cid parent_index links st st' h
      cases links with
      | nil =>
        simp [exec] at h
        simp [← h, statOkLinks]
      | cons link rest =>
        cases hstat : env.stat link.hash with
        | none =>
          rw [dirLinks_statFail env f cid parent_cid parent_index link rest st hstat] at h
          have hrest := ih.1 cid parent_cid parent_index rest _ _ h
          simp only [logQ] at hrest
          rw [hrest]
          simp [statOkLinks, List.countP_cons, hstat]
        | some statData =>
          simp only [exec, hstat] at h
          set st1 := logQ st (.stat link.hash) with hst1
          set st3 := emitEntryRow st1 parent_cid parent_index link statData with hst3
          rcases hrec : exec env f (.dagVisit link.hash cid) st3 with ⟨st4, e?⟩
          rw [hrec] at h
          cases e? with
          | some e => simp at h
          | none =>
            dsimp only at h
            have htree4 : st4.treeLog.length = st.treeLog.length + 1 := by
              have hp := exec_dag_preserves_tree env f (.dagVisit link.hash cid) st3
                (by simp [isDagCall])
              rw [hrec] at hp
              have h4 : st4.treeLog = st3.treeLog := congrArg (fun x => x.2.2.2) hp
              rw [h4, hst3]
              simp [emitEntryRow, emitTree, hst1, logQ]
            by_cases hdir : entryIsDir link = true
            · rw [if_pos hdir] at h
              rw [dagVisit_then_dirVisit_noop env f link.hash cid st3 st4 hrec
                f cid st1.rowIndex] at h
              dsimp only at h
              have hrest := ih.1 cid parent_cid parent_index rest st4 st' h
              rw [hrest, htree4]
              simp [statOkLinks, List.countP_cons, hstat]
              omega
            · rw [if_neg hdir] at h
              have hrest := ih.1 cid parent_cid parent_index rest st4 st' h
              rw [hrest, htree4]
              simp [statOkLinks, List.countP_cons, hstat]
              omega
    · intro cid parent_cid parent_index objs st st' h
      cases objs with
      | nil =>
        simp [exec] at h
        simp [← h, statOkObjs]
      | cons o rest =>
        simp only [exec] at h
        rcases hrec : exec env f (.dirLinks cid parent_cid parent_index (o.links.getD [])) st
          with ⟨st2, e?⟩
        rw [hrec] at h
        cases e? with
        | some e => simp at h
        | none =>
          dsimp only at h
          have h1 := ih.1 cid parent_cid parent_index (o.links.getD []) _ _ hrec
          have h2 := ih.2 cid parent_cid parent_index rest _ _ h
          rw [h2, h1]
          simp [statOkObjs]
          omega

/-- One tree row per stat-successful entry, at the level of one
directory visit. -/
theorem dirVisit_treeLog_count (env : Env) (fuel : Nat) (cid parent_cid : Option Cid)
    (parent_index : Nat) (st st' : St) (ld : LsData) (objs : List LsObject)
    (hmem : cid ∉ st.visited) (hls : env.ls cid = some ld) (hobjs : ld.objects = some objs)
    (h : exec env fuel (.dirVisit cid parent_cid parent_index) st = (st', none)) :
    st'.treeLog.length = st.treeLog.length + statOkObjs env objs := by
  cases fuel with
  | zero => simp [exec, hmem] at h
  | succ f =>
    simp only [exec, if_neg hmem, hls, hobjs] at h
    have hcount := (exec_treeLog_count env f).2 cid parent_cid parent_index objs _ _ h
    rw [hcount]
    simp [logQ]

theorem rowsFor_append (cid : Option Cid) (l1 l2 : List BlockRow) :
    rowsFor cid (l1 ++ l2) = rowsFor cid l1 ++ rowsFor cid l2 := by
  simp [rowsFor, List.filter_append]

/-- The link loop of the block walker emits exactly one row per link
for its own node, in link order, and block rows emitted by the
recursive calls are never for the node itself; every link target ends
up in the visited set. -/
theorem dagLinks_rows (env : Env) : ∀ fuel cid parent_cid fbh n links st st',
    cid ∈ st.visited →
    exec env fuel (.dagLinks cid parent_cid fbh n links) st = (st', none) →
    rowsFor cid st'.blockRows =
      rowsFor cid st.blockRows ++ links.map (edgeRow cid parent_cid fbh n) ∧
    (∀ l ∈ links, ∀ c, l.hashSlash = some c → some c ∈ st'.visited) := by
  intro fuel
  induction fuel with
  | zero =>
    intro cid parent_cid fbh n links st st' hmem h
    cases links with
    | nil =>
      simp [exec] at h
      simp [← h]
    | cons l rest => simp [exec] at h
  | succ f ih =>
    intro cid parent_cid fbh n links st st' hmem h
    cases links with
    | nil =>
      simp [exec] at h
      simp [← h]
    | cons l rest =>
      cases hh : l.hashSlash with
      | none => simp [exec, hh] at h
      | some link_cid =>
        cases ht : l.tsize with
        | none => simp [exec, hh, ht] at h
        | some link_size =>
          simp only [exec, hh, ht] at h
          set stE := emitBlock st ⟨cid, parent_cid, fbh, n, link_size⟩ with hstE
          rcases hrec : exec env f (.dagVisit (some link_cid) cid) stE with ⟨st4, e?⟩
          rw [hrec] at h
          cases e? with
          | some e => simp at h
          | none =>
            dsimp only at h
            have hmemE : cid ∈ stE.visited := by
              rw [hstE]
              simpa [emitBlock] using hmem
            have hev1 : Evolves none stE st4 := by
              have hev := exec_evolves env f (.dagVisit (some link_cid) cid) stE
              rw [hrec] at hev
              exact hev
            have hmem4 : cid ∈ st4.visited := hev1.subsetVisited cid hmemE
            obtain ⟨ihf, ihv⟩ := ih cid parent_cid fbh n rest st4 st' hmem4 h
            have hev2 : Evolves (some cid) st4 st' := by
              have hev := exec_evolves env f (.dagLinks cid parent_cid fbh n rest) st4
              rw [h] at hev
              exact hev
            constructor
            · rw [ihf]
              have hext : rowsFor cid st4.blockRows = rowsFor cid stE.blockRows := by
                obtain ⟨e, he, hre⟩ := hev1.blocks
                rw [he, rowsFor_append]
                have hnil : rowsFor cid e = [] := by
                  rw [rowsFor, List.filter_eq_nil_iff]
                  intro r hr
                  rcases hre r hr with h' | h'
                  · simp only [beq_iff_eq]
                    intro hc
                    exact h' (hc ▸ hmemE)
                  · cases h'
                rw [hnil, List.append_nil]
              rw [hext, hstE]
              have hrow : (⟨cid, parent_cid, fbh, n, link_size⟩ : BlockRow) =
                  edgeRow cid parent_cid fbh n l := by
                simp [edgeRow, ht]
              simp only [rowsFor, emitBlock, List.filter_append, hrow]
              simp [edgeRow]
            · intro l' hl' c hc
              rcases List.mem_cons.mp hl' with rfl | hl''
              · have hc' : c = link_cid := by
                  rw [hh] at hc
                  exact (Option.some_injective _ hc).symm
                subst hc'
                exact hev2.subsetVisited _
                  (dagVisit_mem_visited env f (some c) cid stE st4 hrec)
              · exact ihv l' hl'' c hc

/-- The block walker on an unvisited internal node with a nonempty link
list: one row per link in link order, each with the link count and the
link's transmission size, all carrying the hash of the last link; every
link target is block-walked (hence visited). -/
theorem dagVisit_internal_rows (env : Env) (fuel : Nat) (cid parent_cid : Option Cid)
    (links : List DagLink) (st st' : St)
    (hmem : cid ∉ st.visited) (hdag : env.dag cid = some (.withLinks links))
    (hne : links ≠ [])
    (h : exec env fuel (.dagVisit cid parent_cid) st = (st', none)) :
    ∃ llast cl, links.getLast? = some llast ∧ llast.hashSlash = some cl ∧
      rowsFor cid st'.blockRows =
        rowsFor cid st.blockRows ++ links.map (edgeRow cid parent_cid (some cl) links.length) ∧
      (∀ l ∈ links, ∀ c, l.hashSlash = some c → some c ∈ st'.visited) := by
  cases fuel with
  | zero => simp [exec, hmem] at h
  | succ f =>
    obtain ⟨llast, hlast⟩ : ∃ llast, links.getLast? = some llast := by
      cases hl : links.getLast? with
      | none => exact absurd (List.getLast?_eq_none_iff.mp hl) hne
      | some x => exact ⟨x, rfl⟩
    cases hhs : llast.hashSlash with
    | none =>
      have hfbh : finalBlockHash links = .error (.keyError "Hash") := by
        simp [finalBlockHash, hlast, hhs]
      simp [exec, hmem, hdag, hfbh] at h
    | some cl =>
      have hfbh : finalBlockHash links = .ok (some cl) := by
        simp [finalBlockHash, hlast, hhs]
      simp only [exec, if_neg hmem, hdag, hfbh] at h
      refine ⟨llast, cl, hlast, hhs, ?_⟩
      have hmem1 : cid ∈ (logQ { st with visited := cid :: st.visited } (.dag cid)).visited := by
        simp [logQ]
      obtain ⟨hf, hv⟩ := dagLinks_rows env f cid parent_cid (some cl) links.length links _ st'
        hmem1 h
      refine ⟨?_, hv⟩
      rw [hf]
      simp [rowsFor, logQ]

theorem mem_of_getLast? {α : Type} {l : List α} {x : α} (h : x ∈ l.getLast?) : x ∈ l := by
  obtain ⟨hne, rfl⟩ := List.mem_getLast?_eq_getLast h
  exact List.getLast_mem hne

theorem ParentOk.append {l : List (Nat × TreeRow)} {x : Nat × TreeRow}
    (h : ParentOk l) (hx : x.2.index_of_parent = 0 ∨ x.2.index_of_parent ∈ logIdxs l) :
    ParentOk (l ++ [x]) := by
  intro i hi
  by_cases hil : i < l.length
  · have hget : (l ++ [x])[i] = l[i] := List.getElem_append_left hil
    have htake : (l ++ [x]).take i = l.take i :=
      List.take_append_of_le_length (le_of_lt hil)
    rw [hget, htake]
    exact h i hil
  · have hieq : i = l.length := by
      simp only [List.length_append, List.length_singleton] at hi
      omega
    subst hieq
    have hget : (l ++ [x])[l.length] = x := by simp
    have htake : (l ++ [x]).take l.length = l := by simp
    rw [hget, htake]
    exact hx

/-- `TreeInv` only depends on the tree part of the state. -/
theorem TreeInv.of_treePart_eq {st st' : St} (h : treePart st' = treePart st)
    (hInv : TreeInv st) : TreeInv st' := by
  have hrow : st'.rowIndex = st.rowIndex := congrArg (fun x => x.1) h
  have hdir : st'.dirRows = st.dirRows := congrArg (fun x => x.2.1) h
  have hfile : st'.fileRows = st.fileRows := congrArg (fun x => x.2.2.1) h
  have hlog : st'.treeLog = st.treeLog := congrArg (fun x => x.2.2.2) h
  exact ⟨hlog ▸ hInv.chain, hlog ▸ hrow ▸ hInv.bound, hlog ▸ hInv.parentOk,
    hlog ▸ hdir ▸ hfile ▸ hInv.covered⟩

/-- A parent-index obligation survives any state evolution (the log
only grows at the end). -/
theorem idxOk_mono {i : Nat} {st st' : St} {o : Option (Option Cid)}
    (h : i = 0 ∨ i ∈ logIdxs st.treeLog) (hev : Evolves o st st') :
    i = 0 ∨ i ∈ logIdxs st'.treeLog := by
  rcases h with h | h
  · exact Or.inl h
  · obtain ⟨e, he⟩ := hev.tree
    rw [he]
    exact Or.inr (by simp [logIdxs]; left; simpa [logIdxs] using h)

/-- Emitting the row of one listing entry preserves the invariant when
its parent index is a legal back-reference. -/
theorem treeInv_emitEntryRow (st : St) (parent_cid : Option Cid) (parent_index : Nat)
    (link : LsLink) (sd : StatData) (hInv : TreeInv st)
    (hidx : parent_index = 0 ∨ parent_index ∈ logIdxs st.treeLog) :
    TreeInv (emitEntryRow st parent_cid parent_index link sd) := by
  have hlast : ∀ a ∈ (logIdxs st.treeLog).getLast?, a < st.rowIndex := by
    intro a ha
    have hmem := mem_of_getLast? ha
    simp only [logIdxs, List.mem_map] at hmem
    obtain ⟨x, hx, rfl⟩ := hmem
    exact hInv.bound x hx
  constructor
  · simp only [emitEntryRow, emitTree, logIdxs, List.map_append]
    rw [List.chain'_append]
    refine ⟨hInv.chain, List.chain'_singleton _, ?_⟩
    intro a ha y hy
    simp only [List.map_cons, List.map_nil, List.head?_cons, Option.mem_def,
      Option.some.injEq] at hy
    subst hy
    exact hlast a ha
  · intro x hx
    simp only [emitEntryRow, emitTree, List.mem_append, List.mem_singleton] at hx
    rcases hx with hx | hx
    · exact lt_trans (hInv.bound x hx) (Nat.lt_succ_self _)
    · subst hx
      exact Nat.lt_succ_self _
  · simp only [emitEntryRow, emitTree]
    exact hInv.parentOk.append (by simpa [entryRow] using hidx)
  · intro r hr
    have hcov := hInv.covered r
    simp only [emitEntryRow, emitTree] at hr ⊢
    cases hb : entryIsDir link with
    | true =>
      simp only [hb, if_true, List.mem_append] at hr
      rcases hr with (hr | hr) | hr
      · obtain ⟨i, hi⟩ := hcov (List.mem_append_left _ hr)
        exact ⟨i, List.mem_append_left _ hi⟩
      · simp only [List.mem_singleton] at hr
        subst hr
        exact ⟨st.rowIndex, List.mem_append_right _ (by simp)⟩
      · obtain ⟨i, hi⟩ := hcov (List.mem_append_right _ hr)
        exact ⟨i, List.mem_append_left _ hi⟩
    | false =>
      simp only [hb, if_false, Bool.false_eq_true, List.mem_append] at hr
      rcases hr with hr | (hr | hr)
      · obtain ⟨i, hi⟩ := hcov (List.mem_append_left _ hr)
        exact ⟨i, List.mem_append_left _ hi⟩
      · obtain ⟨i, hi⟩ := hcov (List.mem_append_right _ hr)
        exact ⟨i, List.mem_append_left _ hi⟩
      · simp only [List.mem_singleton] at hr
        subst hr
        exact ⟨st.rowIndex, List.mem_append_right _ (by simp)⟩

/-- Every traversal call preserves the tree-walker invariant, provided
its parent index (if it carries one) is a legal back-reference. -/
theorem exec_treeInv (env : Env) :
    ∀ fuel c st, TreeInv st → callIdxOk c st → TreeInv (exec env fuel c st).1 := by
  intro fuel
  induction fuel with
  | zero =>
    intro c st hInv _
    rw [exec_zero_fst]
    exact hInv
  | succ f ih =>
    intro c st hInv hidx
    cases c with
    | dagVisit cid parent_cid =>
      exact TreeInv.of_treePart_eq
        (exec_dag_preserves_tree env (f + 1) _ st (by simp [isDagCall])) hInv
    | dagLinks cid parent_cid fbh n links =>
      exact TreeInv.of_treePart_eq
        (exec_dag_preserves_tree env (f + 1) _ st (by simp [isDagCall])) hInv
    | dirVisit cid parent_cid parent_index =>
      by_cases hmem : cid ∈ st.visited
      · simp [exec, hmem]
        exact hInv
      · cases hls : env.ls cid with
        | none =>
          simp only [exec, if_neg hmem, hls]
          exact TreeInv.of_treePart_eq (by simp [treePart, logQ]) hInv
        | some lsData =>
          cases hobjs : lsData.objects with
          | none =>
            simp only [exec, if_neg hmem, hls, hobjs]
            exact TreeInv.of_treePart_eq (by simp [treePart, logQ]) hInv
          | some objs =>
            simp only [exec, if_neg hmem, hls, hobjs]
            refine ih (.dirObjs cid parent_cid parent_index objs) _
              (TreeInv.of_treePart_eq (by simp [treePart, logQ]) hInv) ?_
            show parent_index = 0 ∨ parent_index ∈ logIdxs (logQ
              { st with visited := cid :: st.visited } (.ls cid)).treeLog
            simpa [logQ] using hidx
    | dirObjs cid parent_cid parent_index objs =>
      cases objs with
      | nil =>
        simp [exec]
        exact hInv
      | cons o rest =>
        simp only [exec]
        rcases hrec : exec env f (.dirLinks cid parent_cid parent_index (o.links.getD [])) st
          with ⟨st2, e?⟩
        have hInv2 : TreeInv st2 := by
          have h2 := ih (.dirLinks cid parent_cid parent_index (o.links.getD [])) st hInv hidx
          rw [hrec] at h2
          exact h2
        cases e? with
        | some e => dsimp only; exact hInv2
        | none =>
          dsimp only
          have hev : Evolves none st st2 := by
            have h2 := exec_evolves env f (.dirLinks cid parent_cid parent_index (o.links.getD [])) st
            rw [hrec] at h2
            exact h2
          exact ih (.dirObjs cid parent_cid parent_index rest) st2 hInv2 (idxOk_mono hidx hev)
    | dirLinks cid parent_cid parent_index links =>
      cases links with
      | nil =>
        simp [exec]
        exact hInv
      | cons link rest =>
        cases hstat : env.stat link.hash with
        | none =>
          rw [dirLinks_statFail env f cid parent_cid parent_index link rest st hstat]
          refine ih (.dirLinks cid parent_cid parent_index rest) _
            (TreeInv.of_treePart_eq (by simp [treePart, logQ]) hInv) ?_
          show parent_index = 0 ∨ parent_index ∈ logIdxs (logQ st (.stat link.hash)).treeLog
          simpa [logQ] using hidx
        | some statData =>
          simp only [exec, hstat]
          set st1 := logQ st (.stat link.hash) with hst1
          set st3 := emitEntryRow st1 parent_cid parent_index link statData with hst3
          have hInv1 : TreeInv st1 :=
            TreeInv.of_treePart_eq (by rw [hst1]; simp [treePart, logQ]) hInv
          have hidx1 : parent_index = 0 ∨ parent_index ∈ logIdxs st1.treeLog := by
            rw [hst1]
            simpa [logQ] using hidx
          have hInv3 : TreeInv st3 := by
            rw [hst3]
            exact treeInv_emitEntryRow st1 _ _ _ _ hInv1 hidx1
          rcases hrec : exec env f (.dagVisit link.hash cid) st3 with ⟨st4, e?⟩
          have hlog43 : st4.treeLog = st3.treeLog := by
            have hp := exec_dag_preserves_tree env f (.dagVisit link.hash cid) st3
              (by simp [isDagCall])
            rw [hrec] at hp
            exact congrArg (fun x => x.2.2.2) hp
          have hInv4 : TreeInv st4 := by
            have hp := exec_dag_preserves_tree env f (.dagVisit link.hash cid) st3
              (by simp [isDagCall])
            rw [hrec] at hp
            exact TreeInv.of_treePart_eq hp hInv3
          cases e? with
          | some e => dsimp only; exact hInv4
          | none =>
            dsimp only
            have hidx4 : parent_index = 0 ∨ parent_index ∈ logIdxs st4.treeLog := by
              rw [hlog43, hst3]
              rcases hidx1 with h | h
              · exact Or.inl h
              · right
                simp only [emitEntryRow, emitTree, logIdxs, List.map_append]
                exact List.mem_append_left _ (by simpa [logIdxs] using h)
            by_cases hdir : entryIsDir link = true
            · rw [if_pos hdir]
              rcases hrec2 : exec env f (.dirVisit link.hash cid st1.rowIndex) st4
                with ⟨st5, e2?⟩
              have hcur : st1.rowIndex ∈ logIdxs st4.treeLog := by
                rw [hlog43, hst3]
                simp [emitEntryRow, emitTree, logIdxs]
              have hInv5 : TreeInv st5 := by
                have h5 := ih (.dirVisit link.hash cid st1.rowIndex) st4 hInv4 (Or.inr hcur)
                rw [hrec2] at h5
                exact h5
              cases e2? with
              | some e => dsimp only; exact hInv5
              | none =>
                dsimp only
                have hev45 : Evolves none st4 st5 := by
                  have h5 := exec_evolves env f (.dirVisit link.hash cid st1.rowIndex) st4
                  rw [hrec2] at h5
                  exact h5
                exact ih (.dirLinks cid parent_cid parent_index rest) st5 hInv5
                  (idxOk_mono hidx4 hev45)
            · rw [if_neg hdir]
              exact ih (.dirLinks cid parent_cid parent_index rest) st4 hInv4 hidx4

/-- The invariant holds for the initial state of `main`. -/
theorem treeInv_initSt : TreeInv initSt := by
  constructor
  · simp [initSt, logIdxs]
  · intro x hx
    simp [initSt] at hx
  · intro i hi
    simp [initSt] at hi
  · intro r hr
    simp [initSt] at hr

theorem finalBlockHash_ok {links : List DagLink}
    (hwf : ∀ l ∈ links, l.hashSlash ≠ none ∧ l.tsize ≠ none) :
    ∃ fbh, finalBlockHash links = .ok fbh := by
  cases hlast : links.getLast? with
  | none => exact ⟨none, by simp [finalBlockHash, hlast]⟩
  | some l =>
    have hl : l ∈ links := mem_of_getLast? hlast
    cases hhs : l.hashSlash with
    | none => exact absurd hhs (hwf l hl).1
    | some c => exact ⟨some c, by simp [finalBlockHash, hlast, hhs]⟩

/-- With well-formed DAG responses no call ever ends in a `KeyError`:
the only possible outcomes are normal return and fuel exhaustion. -/
theorem exec_no_keyError (env : Env) (hwf : WfDagEnv env) :
    ∀ fuel c st s, callWf c → (exec env fuel c st).2 = some (.keyError s) → False := by
  intro fuel
  induction fuel with
  | zero =>
    intro c st s _ h
    cases c with
    | dagVisit cid parent_cid =>
      by_cases hmem : cid ∈ st.visited <;> simp [exec, hmem] at h
    | dagLinks cid parent_cid fbh n links =>
      cases links <;> simp [exec] at h
    | dirVisit cid parent_cid parent_index =>
      by_cases hmem : cid ∈ st.visited <;> simp [exec, hmem] at h
    | dirObjs cid parent_cid parent_index objs =>
      cases objs <;> simp [exec] at h
    | dirLinks cid parent_cid parent_index links =>
      cases links <;> simp [exec] at h
  | succ f ih =>
    intro c st s hcwf h
    cases c with
    | dagVisit cid parent_cid =>
      by_cases hmem : cid ∈ st.visited
      · simp [exec, hmem] at h
      · cases hdag : env.dag cid with
        | none => simp [exec, hmem, hdag] at h
        | some dd =>
          cases dd with
          | terminal => simp [exec, hmem, hdag] at h
          | withLinks links =>
            obtain ⟨fbh, hfbh⟩ := finalBlockHash_ok (hwf cid links hdag)
            simp only [exec, if_neg hmem, hdag, hfbh] at h
            exact ih (.dagLinks cid parent_cid fbh links.length links) _ s
              (hwf cid links hdag) h
    | dagLinks cid parent_cid fbh n links =>
      cases links with
      | nil => simp [exec] at h
      | cons l rest =>
        cases hh : l.hashSlash with
        | none => exact absurd hh (hcwf l (List.mem_cons_self l rest)).1
        | some link_cid =>
          cases ht : l.tsize with
          | none => exact absurd ht (hcwf l (List.mem_cons_self l rest)).2
          | some link_size =>
            simp only [exec, hh, ht] at h
            rcases hrec : exec env f (.dagVisit (some link_cid) cid)
                (emitBlock st ⟨cid, parent_cid, fbh, n, link_size⟩) with ⟨st4, e?⟩
            rw [hrec] at h
            cases e? with
            | some e =>
              dsimp only at h
              rw [h] at hrec
              exact ih (.dagVisit (some link_cid) cid) _ s trivial (by rw [hrec])
            | none =>
              dsimp only at h
              exact ih (.dagLinks cid parent_cid fbh n rest) st4 s
                (fun l' hl' => hcwf l' (List.mem_cons_of_mem _ hl')) (by rw [h])
    | dirVisit cid parent_cid parent_index =>
      by_cases hmem : cid ∈ st.visited
      · simp [exec, hmem] at h
      · cases hls : env.ls cid with
        | none => simp [exec, hmem, hls] at h
        | some lsData =>
          cases hobjs : lsData.objects with
          | none => simp [exec, hmem, hls, hobjs] at h
          | some objs =>
            simp only [exec, if_neg hmem, hls, hobjs] at h
            exact ih (.dirObjs cid parent_cid parent_index objs) _ s trivial h
    | dirObjs cid parent_cid parent_index objs =>
      cases objs with
      | nil => simp [exec] at h
      | cons o rest =>
        simp only [exec] at h
        rcases hrec : exec env f (.dirLinks cid parent_cid parent_index (o.links.getD [])) st
          with ⟨st2, e?⟩
        rw [hrec] at h
        cases e? with
        | some e =>
          dsimp only at h
          rw [h] at hrec
          exact ih (.dirLinks cid parent_cid parent_index (o.links.getD [])) st s trivial
            (by rw [hrec])
        | none =>
          dsimp only at h
          exact ih (.dirObjs cid parent_cid parent_index rest) st2 s trivial (by rw [h])
    | dirLinks cid parent_cid parent_index links =>
      cases links with
      | nil => simp [exec] at h
      | cons link rest =>
        cases hstat : env.stat link.hash with
        | none =>
          rw [dirLinks_statFail env f cid parent_cid parent_index link rest st hstat] at h
          exact ih (.dirLinks cid parent_cid parent_index rest) _ s trivial h
        | some statData =>
          simp only [exec, hstat] at h
          rcases hrec : exec env f (.dagVisit link.hash cid)
              (emitEntryRow (logQ st (.stat link.hash)) parent_cid parent_index link statData)
            with ⟨st4, e?⟩
          rw [hrec] at h
          cases e? with
          | some e =>
            dsimp only at h
            rw [h] at hrec
            exact ih (.dagVisit link.hash cid) _ s trivial (by rw [hrec])
          | none =>
            dsimp only at h
            by_cases hdir : entryIsDir link = true
            · rw [if_pos hdir] at h
              rcases hrec2 : exec env f
                  (.dirVisit link.hash cid (logQ st (.stat link.hash)).rowIndex) st4
                with ⟨st5, e2?⟩
              rw [hrec2] at h
              cases e2? with
              | some e =>
                dsimp only at h
                rw [h] at hrec2
                exact ih (.dirVisit link.hash cid (logQ st (.stat link.hash)).rowIndex) st4 s
                  trivial (by rw [hrec2])
              | none =>
                dsimp only at h
                exact ih (.dirLinks cid parent_cid parent_index rest) st5 s trivial (by rw [h])
            · rw [if_neg hdir] at h
              exact ih (.dirLinks cid parent_cid parent_index rest) st4 s trivial (by rw [h])

/-- In a whole run, no block row carries the root CID in its `cid`
column and the root's DAG node is never fetched: the root is marked
visited before any block walk starts. -/
theorem run_root_never_block_walked (env : Env) (fuel : Nat) (root : Cid) :
    (∀ r ∈ (run env fuel root).1.blockRows, r.cid ≠ some root) ∧
    Query.dag (some root) ∉ (run env fuel root).1.queries := by
  cases fuel with
  | zero =>
    rw [run, exec_zero_fst]
    constructor
    · intro r hr
      simp [initSt] at hr
    · simp [initSt]
  | succ f =>
    have hmem : some root ∉ initSt.visited := by simp [initSt]
    cases hls : env.ls (some root) with
    | none =>
      rw [run]
      simp only [exec, if_neg hmem, hls]
      constructor
      · intro r hr
        simp [logQ, initSt] at hr
      · simp [logQ, initSt]
    | some lsData =>
      cases hobjs : lsData.objects with
      | none =>
        rw [run]
        simp only [exec, if_neg hmem, hls, hobjs]
        constructor
        · intro r hr
          simp [logQ, initSt] at hr
        · simp [logQ, initSt]
      | some objs =>
        rw [run]
        simp only [exec, if_neg hmem, hls, hobjs]
        have hev := exec_evolves env f (.dirObjs (some root) (some root) 0 objs)
          (logQ { initSt with visited := some root :: initSt.visited } (.ls (some root)))
        constructor
        · intro r hr
          obtain ⟨e, he, hre⟩ := hev.blocks
          rw [he] at hr
          rcases List.mem_append.mp hr with hr' | hr'
          · simp [logQ, initSt] at hr'
          · rcases hre r hr' with h' | h'
            · intro hc
              apply h'
              rw [hc]
              simp [logQ, initSt]
            · cases h'
        · intro hq
          obtain ⟨e, he, hqe⟩ := hev.dagQueries
          rw [he] at hq
          rcases List.mem_append.mp hq with hq' | hq'
          · simp [logQ, initSt] at hq'
          · exact hqe (some root) hq' (by simp [logQ, initSt])

/-- C4: invoking the tree walker on a CID already in the visited set
returns the state unchanged — the row-index counter is unchanged, no
rows are emitted, no remote queries are issued and the visited set is
untouched. -/
theorem c4_visited_dir_noop (env : Env) (fuel : Nat) (cid parent_cid : Option Cid)
    (parent_index : Nat) (st : St) (h : cid ∈ st.visited) :
    exec env fuel (.dirVisit cid parent_cid parent_index) st = (st, none) :=
  dirVisit_of_visited env fuel cid parent_cid parent_index st h

theorem c4_visited_dir_noop_witness :
    some "X" ∈ ({ initSt with visited := [some "X"] } : St).visited ∧
    exec envAllTerminal 3 (.dirVisit (some "X") (some "R") 0)
        { initSt with visited := [some "X"] } =
      ({ initSt with visited := [some "X"] }, none) :=
  ⟨by decide,
    c4_visited_dir_noop envAllTerminal 3 (some "X") (some "R") 0
      { initSt with visited := [some "X"] } (by decide)⟩

/-- C6: the block walker on an unvisited CID whose DAG fetch yields a
terminal block (no `Links` key) emits exactly one row with
`num_links = 0`, `size = 0` and `final_block_hash` equal to the node's
own CID, after marking the CID visited and fetching its DAG node. -/
theorem c6_terminal_block_single_row (env : Env) (fuel : Nat) (cid parent_cid : Option Cid)
    (st : St) (h : cid ∉ st.visited) (hd : env.dag cid = some .terminal) :
    exec env (fuel + 1) (.dagVisit cid parent_cid) st =
      ({ st with visited := cid :: st.visited,
                 queries := st.queries ++ [Query.dag cid],
                 blockRows := st.blockRows ++ [⟨cid, parent_cid, cid, 0, 0⟩] }, none) :=
  dagVisit_terminal env fuel cid parent_cid st h hd

theorem c6_terminal_block_single_row_witness :
    some "B" ∉ initSt.visited ∧
    exec envAllTerminal 2 (.dagVisit (some "B") (some "P")) initSt =
      ({ initSt with visited := some "B" :: initSt.visited,
                     queries := initSt.queries ++ [Query.dag (some "B")],
                     blockRows := initSt.blockRows ++
                       [⟨some "B", some "P", some "B", 0, 0⟩] }, none) :=
  ⟨by decide,
    c6_terminal_block_single_row envAllTerminal 1 (some "B") (some "P") initSt
      (by decide) rfl⟩

/-- C7: when the stat query for one listing entry fails, only that
entry is skipped — no tree row, no row-index consumption, no block
walk of its child — and the loop continues on the remaining entries of
the same listing exactly as before, with only the failed stat query
logged. -/
theorem c7_stat_failure_skips_single_entry (env : Env) (fuel : Nat)
    (cid parent_cid : Option Cid) (parent_index : Nat) (link : LsLink)
    (rest : List LsLink) (st : St) (h : env.stat link.hash = none) :
    exec env (fuel + 1) (.dirLinks cid parent_cid parent_index (link :: rest)) st =
      exec env fuel (.dirLinks cid parent_cid parent_index rest)
        (logQ st (.stat link.hash)) :=
  dirLinks_statFail env fuel cid parent_cid parent_index link rest st h

theorem c7_stat_failure_skips_single_entry_witness :
    envAllTerminal.stat (some "Z") = none ∧
    exec envAllTerminal 4 (.dirLinks (some "R") (some "P") 0
        [⟨some "n", some "Z", some 1, some 2⟩]) initSt =
      exec envAllTerminal 3 (.dirLinks (some "R") (some "P") 0 [])
        (logQ initSt (.stat (some "Z"))) :=
  ⟨rfl,
    c7_stat_failure_skips_single_entry envAllTerminal 3 (some "R") (some "P") 0
      ⟨some "n", some "Z", some 1, some 2⟩ [] initSt rfl⟩

/-- C9: the block walker on an unvisited CID whose DAG response
contains a `Links` key bound to the empty list marks the CID visited
and fetches the node but emits no row at all — neither a terminal-block
row nor any per-edge row — and recurses into nothing. -/
theorem c9_empty_links_zero_rows (env : Env) (fuel : Nat) (cid parent_cid : Option Cid)
    (st : St) (h : cid ∉ st.visited) (hd : env.dag cid = some (.withLinks [])) :
    exec env (fuel + 1) (.dagVisit cid parent_cid) st =
      ({ st with visited := cid :: st.visited,
                 queries := st.queries ++ [Query.dag cid] }, none) :=
  dagVisit_emptyLinks env fuel cid parent_cid st h hd

theorem c9_empty_links_zero_rows_witness :
    some "E" ∉ initSt.visited ∧
    exec envEmptyLinks 2 (.dagVisit (some "E") (some "P")) initSt =
      ({ initSt with visited := some "E" :: initSt.visited,
                     queries := initSt.queries ++ [Query.dag (some "E")] }, none) :=
  ⟨by decide,
    c9_empty_links_zero_rows envEmptyLinks 1 (some "E") (some "P") initSt
      (by decide) (by decide)⟩

/-- C1 (code bug): with every remote query succeeding, the root listing
one directory entry `X` and `X` itself listing a stat-successful file
entry `Y`, the run still emits no row for `Y` and only one tree row in
total: the block walk of `X` inserts `X` into the shared visited set,
so the tree walker's recursive visit of `X` is an idempotent no-op and
`X`'s own listing is never processed. -/
theorem c1_subdirectory_listing_never_processed :
    (envDeepDir.ls (some "X")).isSome = true ∧
    (envDeepDir.stat (some "Y")).isSome = true ∧
    (run envDeepDir 30 "R").2 = none ∧
    some "X" ∈ (run envDeepDir 30 "R").1.visited ∧
    (run envDeepDir 30 "R").1.treeLog.length = 1 ∧
    (run envDeepDir 30 "R").1.fileRows = [] ∧
    Query.ls (some "X") ∉ (run envDeepDir 30 "R").1.queries := by
  refine ⟨rfl, rfl, by decide, by decide, by decide, by decide, by decide⟩

/-- C2 (counterexample): a listing entry whose child CID has already
been visited still produces a tree row: the root of `envDupChild` lists
the same child `X` twice, `X` is visited during the first entry's block
walk, and the second entry nevertheless emits a second row for `X`. -/
theorem c2_visited_child_reemitted_counterexample :
    ((run envDupChild 20 "R").1.fileRows.map TreeRow.cid) = [some "X", some "X"] ∧
    (run envDupChild 20 "R").1.visited = [some "X", some "R"] ∧
    (run envDupChild 20 "R").2 = none := by
  refine ⟨by decide, by decide, by decide⟩

/-- C2 (amended): every row written to the directories or files output
corresponds to exactly one stat-successful listing entry of the
unvisited directory being listed — the child CID's own visited status
is not consulted, so the row count equals the number of
stat-successful entries, not the number of unvisited child CIDs. -/
theorem c2_one_row_per_stat_ok_entry (env : Env) (fuel : Nat) (cid parent_cid : Option Cid)
    (parent_index : Nat) (st st' : St) (ld : LsData) (objs : List LsObject)
    (hmem : cid ∉ st.visited) (hls : env.ls cid = some ld) (hobjs : ld.objects = some objs)
    (h : exec env fuel (.dirVisit cid parent_cid parent_index) st = (st', none)) :
    st'.treeLog.length = st.treeLog.length + statOkObjs env objs :=
  dirVisit_treeLog_count env fuel cid parent_cid parent_index st st' ld objs
    hmem hls hobjs h

theorem c2_one_row_per_stat_ok_entry_witness :
    (run envDupChild 20 "R").1.treeLog.length =
      initSt.treeLog.length + statOkObjs envDupChild
        [⟨some [⟨some "a", some "X", some 5, some 2⟩,
                ⟨some "b", some "X", some 5, some 2⟩]⟩] :=
  c2_one_row_per_stat_ok_entry envDupChild 20 (some "R") (some "R") 0 initSt
    (run envDupChild 20 "R").1
    ⟨some [⟨some [⟨some "a", some "X", some 5, some 2⟩,
                  ⟨some "b", some "X", some 5, some 2⟩]⟩]⟩
    [⟨some [⟨some "a", some "X", some 5, some 2⟩,
            ⟨some "b", some "X", some 5, some 2⟩]⟩]
    (by decide) rfl rfl (by decide)

/-- C3 (counterexample): a DAG response whose link lacks the `Tsize`
key does escalate: the whole run of `envBadTsize` terminates with an
uncaught `KeyError` instead of completing. -/
theorem c3_missing_tsize_aborts_run_counterexample :
    (run envBadTsize 20 "R").2 = some (Err.keyError "Tsize") := by
  decide

/-- C3 (amended): as long as every DAG response carries `Hash./` and
`Tsize` in each link, no failure escalates: missing `Objects` or
`Links` keys and failed queries are treated as empty or terminal
results, and the run can only end normally (or exhaust the embedding's
fuel) — never with a `KeyError`. -/
theorem c3_no_keyerror_for_wellformed_dag (env : Env) (hwf : WfDagEnv env)
    (fuel : Nat) (root : Cid) (s : String) :
    (run env fuel root).2 ≠ some (.keyError s) := by
  intro h
  exact exec_no_keyError env hwf fuel (.dirVisit (some root) (some root) 0) initSt s
    trivial h

theorem c3_no_keyerror_for_wellformed_dag_witness :
    WfDagEnv envAllTerminal ∧
    (run envAllTerminal 5 "R").2 ≠ some (.keyError "Tsize") := by
  have hwf : WfDagEnv envAllTerminal := by
    intro c links h l hl
    simp [envAllTerminal] at h
  exact ⟨hwf, c3_no_keyerror_for_wellformed_dag envAllTerminal hwf 5 "R" "Tsize"⟩

/-- C5: the block walker on an unvisited CID whose DAG fetch yields an
internal node with N ≥ 1 links emits exactly N rows for that node, one
per link in link order, each carrying `num_links = N`, the link's own
transmission size and `final_block_hash` equal to the CID of the last
link; every link target is then block-walked (hence in the final
visited set), with block provenance attributed to the current node. -/
theorem c5_internal_node_edge_rows (env : Env) (fuel : Nat) (cid parent_cid : Option Cid)
    (links : List DagLink) (st st' : St)
    (hmem : cid ∉ st.visited) (hdag : env.dag cid = some (.withLinks links))
    (hne : links ≠ [])
    (h : exec env fuel (.dagVisit cid parent_cid) st = (st', none)) :
    ∃ llast cl, links.getLast? = some llast ∧ llast.hashSlash = some cl ∧
      rowsFor cid st'.blockRows =
        rowsFor cid st.blockRows ++
          links.map (edgeRow cid parent_cid (some cl) links.length) ∧
      (∀ l ∈ links, ∀ c, l.hashSlash = some c → some c ∈ st'.visited) :=
  dagVisit_internal_rows env fuel cid parent_cid links st st' hmem hdag hne h

theorem c5_internal_node_edge_rows_witness :
    ∃ llast cl,
      ([⟨some "B", some 3⟩, ⟨some "C", some 4⟩] : List DagLink).getLast? = some llast ∧
      llast.hashSlash = some cl ∧
      rowsFor (some "A")
          (exec envTwoLinks 9 (.dagVisit (some "A") (some "P")) initSt).1.blockRows =
        rowsFor (some "A") initSt.blockRows ++
          ([⟨some "B", some 3⟩, ⟨some "C", some 4⟩] : List DagLink).map
            (edgeRow (some "A") (some "P") (some cl)
              ([⟨some "B", some 3⟩, ⟨some "C", some 4⟩] : List DagLink).length) ∧
      (∀ l ∈ ([⟨some "B", some 3⟩, ⟨some "C", some 4⟩] : List DagLink), ∀ c,
        l.hashSlash = some c →
        some c ∈ (exec envTwoLinks 9 (.dagVisit (some "A") (some "P")) initSt).1.visited) :=
  c5_internal_node_edge_rows envTwoLinks 9 (some "A") (some "P")
    [⟨some "B", some 3⟩, ⟨some "C", some 4⟩] initSt
    (exec envTwoLinks 9 (.dagVisit (some "A") (some "P")) initSt).1
    (by decide) (by decide) (by decide) (by decide)

/-- C8: in every run the indices assigned by the tree walker strictly
increase in emission order, every `index_of_parent` in the emission
log equals 0 or an index assigned to a strictly earlier row, and every
row of the directories and files outputs appears in the emission
log. -/
theorem c8_row_indices_strictly_increase (env : Env) (fuel : Nat) (root : Cid) :
    List.Chain' (· < ·) (logIdxs (run env fuel root).1.treeLog) ∧
    ParentOk (run env fuel root).1.treeLog ∧
    (∀ r ∈ (run env fuel root).1.dirRows ++ (run env fuel root).1.fileRows,
      ∃ i, (i, r) ∈ (run env fuel root).1.treeLog) := by
  have hInv := exec_treeInv env fuel (.dirVisit (some root) (some root) 0) initSt
    treeInv_initSt (Or.inl rfl)
  rw [run]
  exact ⟨hInv.chain, hInv.parentOk, hInv.covered⟩

/-- C10 (counterexample): the root CID can appear in block output in a
column other than `parent_cid`: in `envLinkToRoot` the node `X` links
back to the root as its last link, so the single block row carries the
root CID in its `final_block_hash` column. -/
theorem c10_root_as_final_block_hash_counterexample :
    (run envLinkToRoot 20 "R").1.blockRows =
      [⟨some "X", some "R", some "R", 1, 7⟩] ∧
    (run envLinkToRoot 20 "R").2 = none := by
  refine ⟨by decide, by decide⟩

/-- C10 (amended): no block row ever carries the root CID in its `cid`
column and the root's DAG node is never fetched — the root is inserted
into the visited set at the start of the root tree-walker call, before
any block walk, so every block walk reaching the root is a no-op; the
root may however appear in the `parent_cid` and `final_block_hash`
columns. -/
theorem c10_root_cid_never_block_row_subject (env : Env) (fuel : Nat) (root : Cid) :
    (∀ r ∈ (run env fuel root).1.blockRows, r.cid ≠ some root) ∧
    Query.dag (some root) ∉ (run env fuel root).1.queries :=
  run_root_never_block_walked env fuel root
